import Mathlib

/-!
Verification of the local fallback move-selection engine of the Gomoku agent
(`gomokuagent/agent_v2.py`, class `AdvancedLLMAgent`): the win detector
`_creates_five_in_row`, the position scorer `_evaluate_move`, and the
fallback move selector `_get_strategic_move`.

The Python board is a list of lists of cells, where a cell holds `None`
(empty) or a `Player` value; we embed it as `List (List (Option Player))`.
The in-place mutation performed by `_creates_five_in_row` (simulate, scan,
revert) is made explicit by returning the final board alongside the result.
Coordinates are integers, and every bounds test mirrors the Python
`0 <= r < len(board) and 0 <= c < len(board[0])` guards.  Scores computed
by `_evaluate_move` are Python floats whose values are always exact sums of
halves, so we embed them as rationals.
-/

namespace Gomoku

inductive Player where
  | X
  | O
deriving DecidableEq, Repr

def Player.other : Player → Player
  | .X => .O
  | .O => .X

abbrev Cell := Option Player

abbrev Board := List (List Cell)

abbrev Move := Int × Int

/-- `len(board)` -/
def rows (b : Board) : Nat := b.length

/-- `len(board[0])` -/
def cols (b : Board) : Nat := (b.headD []).length

/-- The Python guard `0 <= r < len(board) and 0 <= c < len(board[0])`. -/
def inB (b : Board) (r c : Int) : Bool :=
  decide (0 ≤ r) && decide (r < (rows b : Int)) &&
  decide (0 ≤ c) && decide (c < (cols b : Int))

/-- `board[r][c]`, meaningful for nonnegative in-bounds indices (every read
in the embedded code is guarded by `inB` or performed under an in-bounds
hypothesis). -/
def cellAt (b : Board) (r c : Int) : Cell :=
  if 0 ≤ r ∧ 0 ≤ c then (b.getD r.toNat []).getD c.toNat none else none

/-- `board[r][c] = v`, for nonnegative in-bounds indices. -/
def setCell (b : Board) (r c : Int) (v : Cell) : Board :=
  b.set r.toNat ((b.getD r.toNat []).set c.toNat v)

/-- An 8×8 board: the invariant the surrounding game framework maintains. -/
def WF (b : Board) : Prop := rows b = 8 ∧ ∀ row ∈ b, row.length = 8

instance : DecidablePred WF := fun b => by
  unfold WF; infer_instance

/-- `directions = [(0,1), (1,0), (1,1), (1,-1)]` -/
def directions : List (Int × Int) := [(0,1), (1,0), (1,1), (1,-1)]

/-- The Python `while` loop
`while 0 <= r < len(board) and 0 <= c < len(board[0]) and board[r][c] == player:
  count += 1; r, c = r + dr, c + dc`,
expressed with explicit fuel.  On a board the loop leaves the bounds after at
most `rows + cols` steps in any of the 8 scan senses, so the callers pass
`rows b + cols b` as fuel, which makes the fuel inexhaustible. -/
def countDir (b : Board) (p : Player) : Nat → Int → Int → Int → Int → Nat
  | 0, _, _, _, _ => 0
  | fuel+1, r, c, dr, dc =>
    if inB b r c = true ∧ cellAt b r c = some p then
      1 + countDir b p fuel (r + dr) (c + dc) dr dc
    else 0

/-- One axis of the scan in `_creates_five_in_row`: `count = 1`, plus the
positive-direction loop from `(row+dr, col+dc)`, plus the negative-direction
loop from `(row-dr, col-dc)`. -/
def axisCount (b : Board) (p : Player) (r c dr dc : Int) : Nat :=
  1 + countDir b p (rows b + cols b) (r + dr) (c + dc) dr dc
    + countDir b p (rows b + cols b) (r - dr) (c - dc) (-dr) (-dc)

/-- `_creates_five_in_row(board, move, player)`.  The Python function mutates
`board[row][col]` to simulate the move and mutates it back before every
return; we return the final board alongside the boolean so that this
mutation protocol is part of the embedded semantics. -/
def creates_five_in_row (b : Board) (m : Move) (p : Player) : Bool × Board :=
  let row := m.1
  let col := m.2
  if (cellAt b row col).isSome then
    (false, b)
  else
    let b' := setCell b row col (some p)
    if directions.any (fun d => 5 ≤ axisCount b' p row col d.1 d.2) then
      (true, setCell b' row col none)
    else
      (false, setCell b' row col none)

/-- Python list index resolution for `l[i]`: a negative `i` wraps to
`len l + i`, and an index outside `[-len l, len l)` raises `IndexError`
(`none` here). -/
def pyIdx (n : Nat) (i : Int) : Option Nat :=
  if 0 ≤ i then
    if i < (n : Int) then some i.toNat else none
  else
    if 0 ≤ i + (n : Int) then some (i + (n : Int)).toNat else none

/-- `board[r][c]` with Python's full indexing semantics: negative indices
wrap, out-of-range raises (`none`). -/
def cellAtPy (b : Board) (r c : Int) : Option Cell :=
  match pyIdx b.length r with
  | none => none
  | some ri =>
    match pyIdx (b.getD ri []).length c with
    | none => none
    | some ci => some ((b.getD ri []).getD ci none)

/-- `board[r][c] = v` with Python's full indexing semantics. -/
def setCellPy (b : Board) (r c : Int) (v : Cell) : Option Board :=
  match pyIdx b.length r with
  | none => none
  | some ri =>
    match pyIdx (b.getD ri []).length c with
    | none => none
    | some ci => some (b.set ri ((b.getD ri []).set ci v))

/-- `_creates_five_in_row` with Python's full indexing semantics at its
three unguarded accesses (the guard read, the simulated write, and the
revert write); the scan loops check `0 <= r < len(board)` before every
read, so they never index negatively.  A `none` first component is a raised
`IndexError`; the second component is the board the caller observes after
the call on every exit path, raising included. -/
def creates_five_in_row_py (b : Board) (m : Move) (p : Player) :
    Option Bool × Board :=
  let row := m.1
  let col := m.2
  match cellAtPy b row col with
  | none => (none, b)
  | some cell =>
    if cell.isSome then
      (some false, b)
    else
      match setCellPy b row col (some p) with
      | none => (none, b)
      | some b' =>
        let win := directions.any (fun d => 5 ≤ axisCount b' p row col d.1 d.2)
        match setCellPy b' row col none with
        | none => (none, b')
        | some b2 => (some win, b2)

/-- The 8 Moore-neighborhood offsets, in the order the Python nested loops
`for dr in [-1,0,1]: for dc in [-1,0,1]:` (skipping `(0,0)`) visit them. -/
def neighborOffsets : List (Int × Int) :=
  [(-1,-1), (-1,0), (-1,1), (0,-1), (0,1), (1,-1), (1,0), (1,1)]

/-- `_evaluate_move(board, move, player)`: centrality plus 2 for every
in-bounds non-empty neighbor.  The `player` argument is received (as in the
source) but never read. -/
def evaluate_move (b : Board) (m : Move) (_player : Player) : ℚ :=
  let row := m.1
  let col := m.2
  let center_distance : ℚ := |(row : ℚ) - 3.5| + |(col : ℚ) - 3.5|
  let score : ℚ := 0 + max 0 (7 - center_distance)
  neighborOffsets.foldl
    (fun s d =>
      if inB b (row + d.1) (col + d.2) = true ∧
          (cellAt b (row + d.1) (col + d.2)).isSome then
        s + 2
      else s)
    score

/-- Python `<=` on the pairs `(score, move)` built in step 4 of
`_get_strategic_move`: lexicographic on the nested tuples. -/
def pairLe (a b : ℚ × Move) : Bool :=
  decide (a.1 < b.1) ||
    (decide (a.1 = b.1) &&
      (decide (a.2.1 < b.2.1) ||
        (decide (a.2.1 = b.2.1) && decide (a.2.2 ≤ b.2.2))))

/-- Insert into a descending-sorted list, keeping it descending. -/
def insertDesc (x : ℚ × Move) : List (ℚ × Move) → List (ℚ × Move)
  | [] => [x]
  | y :: ys => if pairLe y x then x :: y :: ys else y :: insertDesc x ys

/-- `scored_moves.sort(reverse=True)`: sort the `(score, move)` pairs into
descending Python-tuple order. -/
def sortDesc (l : List (ℚ × Move)) : List (ℚ × Move) :=
  l.foldr insertDesc []

/-- `center_moves = [(3, 3), (3, 4), (4, 3), (4, 4)]` -/
def centerMoves : List Move := [(3,3), (3,4), (4,3), (4,4)]

/-- `_get_strategic_move(game_state)` given the board, the legal-move list
supplied by the framework, and the current player.  Stage 4's
`scored_moves[0]` raises `IndexError` on an empty list; we embed that return
path as `none`. -/
def get_strategic_move (b : Board) (legal : List Move) (p : Player) :
    Option Move :=
  match legal.find? (fun m => (creates_five_in_row b m p).1) with
  | some m => some m
  | none =>
    match legal.find? (fun m => (creates_five_in_row b m p.other).1) with
    | some m => some m
    | none =>
      match centerMoves.find? (fun m => legal.contains m) with
      | some m => some m
      | none =>
        let scored := legal.map (fun m => (evaluate_move b m p, m))
        match sortDesc scored with
        | [] => none
        | best :: _ => some best.2

/-! ## Specification-side view of the scans -/

/-- The cells `(r + i*dr, c + i*dc)` for `i = 0, …, n-1`: the ray a scan
loop visits, as a list. -/
def rayCells : Int → Int → Int → Int → Nat → List (Int × Int)
  | _, _, _, _, 0 => []
  | r, c, dr, dc, n+1 => (r, c) :: rayCells (r + dr) (c + dc) dr dc n

/-- Specification-side run length: the number of contiguous in-bounds cells
holding the player's stone, extending from the move outward in direction
`(dr, dc)` one step at a time (the move cell itself excluded), read off the
un-mutated board. -/
def specRun (b : Board) (p : Player) (r c dr dc : Int) : Nat :=
  ((rayCells (r + dr) (c + dc) dr dc (rows b + cols b)).takeWhile
    (fun q => inB b q.1 q.2 && decide (cellAt b q.1 q.2 = some p))).length

/-! ## Basic lemmas about the board model -/

theorem list_set_getD_self {α : Type} :
    ∀ (l : List α) (i : Nat) (d : α), l.set i (l.getD i d) = l
  | [], _, _ => rfl
  | _ :: _, 0, _ => rfl
  | a :: t, i+1, d => congrArg (a :: ·) (list_set_getD_self t i d)

theorem rows_setCell (b : Board) (r c : Int) (v : Cell) :
    rows (setCell b r c v) = rows b := by
  simp [rows, setCell]

theorem cols_setCell (b : Board) (r c : Int) (v : Cell) :
    cols (setCell b r c v) = cols b := by
  unfold cols setCell
  cases b with
  | nil => rfl
  | cons h t =>
    cases hr : r.toNat with
    | zero => simp [hr]
    | succ k => simp [hr]

theorem inB_setCell (b : Board) (r c : Int) (v : Cell) (r' c' : Int) :
    inB (setCell b r c v) r' c' = inB b r' c' := by
  simp [inB, rows_setCell, cols_setCell]

theorem cellAt_setCell_ne (b : Board) (v : Cell) {r c r' c' : Int}
    (hr : 0 ≤ r) (hc : 0 ≤ c) (h : (r', c') ≠ (r, c)) :
    cellAt (setCell b r c v) r' c' = cellAt b r' c' := by
  unfold cellAt setCell
  by_cases h' : 0 ≤ r' ∧ 0 ≤ c'
  · rw [if_pos h', if_pos h']
    simp only [List.getD_eq_getElem?_getD]
    by_cases hrr : r' = r
    · subst hrr
      have hcc : c' ≠ c := fun hcc => h (by rw [hcc])
      have hndx : c.toNat ≠ c'.toNat := by omega
      rw [List.getElem?_set]
      split_ifs with h1 h2
      · rw [Option.getD_some, List.getElem?_set_ne hndx]
      · rw [Option.getD_none, List.getElem?_eq_none (Nat.le_of_not_lt h2),
          Option.getD_none]
      · exact absurd rfl h1
    · have hndx : r.toNat ≠ r'.toNat := by omega
      rw [List.getElem?_set_ne hndx]
  · rw [if_neg h', if_neg h']

theorem cellAt_of_nonneg (b : Board) {r c : Int} (hr : 0 ≤ r) (hc : 0 ≤ c) :
    cellAt b r c = (b.getD r.toNat []).getD c.toNat none := by
  rw [cellAt, if_pos ⟨hr, hc⟩]

theorem list_getD_set_self {α : Type} (l : List α) (i : Nat) (x d : α) :
    (l.set i x).getD i d = if i < l.length then x else d := by
  rw [List.getD_eq_getElem?_getD, List.getElem?_set, if_pos rfl]
  by_cases h : i < l.length
  · rw [if_pos h, if_pos h, Option.getD_some]
  · rw [if_neg h, if_neg h, Option.getD_none]

/-- Reverting the simulated stone restores the board exactly. -/
theorem setCell_setCell_cancel (b : Board) {r c : Int} (p : Player)
    (hr : 0 ≤ r) (hc : 0 ≤ c) (hempty : cellAt b r c = none) :
    setCell (setCell b r c (some p)) r c none = b := by
  rw [cellAt_of_nonneg b hr hc] at hempty
  unfold setCell
  rw [List.set_set, list_getD_set_self]
  by_cases hlt : r.toNat < b.length
  · rw [if_pos hlt, List.set_set, ← hempty, list_set_getD_self,
      list_set_getD_self]
  · rw [if_neg hlt, List.set_nil,
      List.set_eq_of_length_le (Nat.le_of_not_lt hlt)]

/-! ## The scan loop computes run lengths along rays -/

theorem countDir_eq_takeWhile (b : Board) (p : Player) :
    ∀ (n : Nat) (r c dr dc : Int),
      countDir b p n r c dr dc =
        ((rayCells r c dr dc n).takeWhile
          (fun q => inB b q.1 q.2 && decide (cellAt b q.1 q.2 = some p))).length
  | 0, _, _, _, _ => rfl
  | n+1, r, c, dr, dc => by
    rw [countDir, rayCells, List.takeWhile_cons]
    by_cases h : inB b r c = true ∧ cellAt b r c = some p
    · rw [if_pos h]
      have hb : (inB b r c && decide (cellAt b r c = some p)) = true := by
        rw [Bool.and_eq_true, decide_eq_true_eq]; exact h
      rw [hb, if_pos rfl, List.length_cons,
        countDir_eq_takeWhile b p n (r + dr) (c + dc) dr dc]
      omega
    · rw [if_neg h]
      have hb : (inB b r c && decide (cellAt b r c = some p)) = false := by
        rw [Bool.and_eq_false_iff]
        by_cases h1 : inB b r c = true
        · exact Or.inr (by
            rw [decide_eq_false_iff_not]
            exact fun h2 => h ⟨h1, h2⟩)
        · exact Or.inl (Bool.not_eq_true _ ▸ Bool.eq_false_iff.mpr h1)
      rw [hb]
      rfl

theorem mem_rayCells {q : Int × Int} :
    ∀ {n : Nat} {r c dr dc : Int}, q ∈ rayCells r c dr dc n →
      ∃ i : Nat, q = (r + (i : Int) * dr, c + (i : Int) * dc)
  | 0, _, _, _, _, h => absurd h (List.not_mem_nil q)
  | n+1, r, c, dr, dc, h => by
    rw [rayCells, List.mem_cons] at h
    rcases h with h | h
    · exact ⟨0, by simpa using h⟩
    · obtain ⟨i, hi⟩ := mem_rayCells (n := n) h
      refine ⟨i + 1, ?_⟩
      rw [hi]
      simp only [Prod.mk.injEq]
      push_cast
      constructor <;> ring

theorem takeWhile_congr_on {α : Type} {p q : α → Bool} :
    ∀ {l : List α}, (∀ x ∈ l, p x = q x) → l.takeWhile p = l.takeWhile q
  | [], _ => rfl
  | a :: t, h => by
    rw [List.takeWhile_cons, List.takeWhile_cons,
      h a (List.mem_cons_self a t),
      takeWhile_congr_on (fun x hx => h x (List.mem_cons_of_mem a hx))]

/-- Scanning the board with the simulated stone placed, starting one step
away from the move in a direction with a nonzero component, measures the
same run as the specification-side count on the un-mutated board. -/
theorem countDir_setCell_eq_specRun (b : Board) (p : Player) {r c dr dc : Int}
    (hr : 0 ≤ r) (hc : 0 ≤ c) (hd : dr ≠ 0 ∨ dc ≠ 0) :
    countDir (setCell b r c (some p)) p (rows b + cols b)
        (r + dr) (c + dc) dr dc = specRun b p r c dr dc := by
  rw [countDir_eq_takeWhile, specRun]
  congr 1
  apply takeWhile_congr_on
  intro x hx
  obtain ⟨i, hi⟩ := mem_rayCells hx
  have hne : (x.1, x.2) ≠ (r, c) := by
    rw [hi]
    intro heq
    rw [Prod.mk.injEq] at heq
    rcases hd with hd | hd
    · have h2 : ((i : Int) + 1) * dr = 0 := by linear_combination heq.1
      rcases mul_eq_zero.mp h2 with h3 | h3
      · omega
      · exact hd h3
    · have h2 : ((i : Int) + 1) * dc = 0 := by linear_combination heq.2
      rcases mul_eq_zero.mp h2 with h3 | h3
      · omega
      · exact hd h3
  rw [inB_setCell, cellAt_setCell_ne b (some p) hr hc hne]

theorem axisCount_setCell_spec (b : Board) (p : Player) {r c : Int}
    (dr dc : Int) (hr : 0 ≤ r) (hc : 0 ≤ c) (hd : dr ≠ 0 ∨ dc ≠ 0) :
    axisCount (setCell b r c (some p)) p r c dr dc =
      specRun b p r c dr dc + specRun b p r c (-dr) (-dc) + 1 := by
  have hd' : -dr ≠ 0 ∨ -dc ≠ 0 := by
    rcases hd with hd | hd
    · exact Or.inl (by omega)
    · exact Or.inr (by omega)
  rw [axisCount, rows_setCell, cols_setCell]
  rw [show r - dr = r + -dr by ring, show c - dc = c + -dc by ring]
  rw [countDir_setCell_eq_specRun b p hr hc hd,
    countDir_setCell_eq_specRun b p hr hc hd']
  omega

theorem inB_elim {b : Board} {r c : Int} (h : inB b r c = true) :
    0 ≤ r ∧ r < (rows b : Int) ∧ 0 ≤ c ∧ c < (cols b : Int) := by
  simp only [inB, Bool.and_eq_true, decide_eq_true_eq] at h
  exact ⟨h.1.1.1, h.1.1.2, h.1.2, h.2⟩

theorem dir_nonzero : ∀ d ∈ directions, d.1 ≠ 0 ∨ d.2 ≠ 0 := by decide

/-- On an empty target cell, the win detector is the `any`-over-axes test on
the board with the stone simulated, paired with the reverted board. -/
theorem creates_five_eq_any (b : Board) (r c : Int) (p : Player)
    (hempty : cellAt b r c = none) :
    creates_five_in_row b (r, c) p =
      (directions.any (fun d =>
          5 ≤ axisCount (setCell b r c (some p)) p r c d.1 d.2),
        setCell (setCell b r c (some p)) r c none) := by
  rw [creates_five_in_row]
  simp only []
  rw [if_neg (by rw [hempty]; simp)]
  split
  · next h => rw [h]
  · next h => rw [Bool.not_eq_true] at h; rw [h]

/-! ## Test fixtures: concrete boards -/

def emptyBoard : Board := List.replicate 8 (List.replicate 8 none)

/-- Player X holds (3,3), (3,4), (3,5), (3,6): a horizontal open four. -/
def winBoard : Board :=
  setCell (setCell (setCell (setCell emptyBoard 3 3 (some .X))
    3 4 (some .X)) 3 5 (some .X)) 3 6 (some .X)

/-- A single stone at the corner (0,0). -/
def occBoard : Board := setCell emptyBoard 0 0 (some .X)

/-- The row-major list of empty cells of a board, the enumeration order the
framework documents for the legal-move list. -/
def rowMajorEmpties (b : Board) : List Move :=
  ((List.range 8).map (fun r => (List.range 8).filterMap
    (fun c => if (cellAt b r c).isSome then none
              else some ((r : Int), (c : Int))))).flatten

/-! ## C1, C4, C9: the win detector -/

/-- C1: for every 8×8 board, player, and in-bounds empty cell,
`_creates_five_in_row` returns true iff placing the stone there produces,
along one of the 4 axes, a contiguous same-player run of length ≥ 5
(contiguous cells forward plus contiguous cells backward plus the placed
stone itself). -/
theorem creates_five_iff_spec (b : Board) (p : Player) (r c : Int)
    (_hwf : WF b) (hin : inB b r c = true) (hempty : cellAt b r c = none) :
    (creates_five_in_row b (r, c) p).1 = true ↔
      ∃ d ∈ directions,
        5 ≤ specRun b p r c d.1 d.2 + specRun b p r c (-d.1) (-d.2) + 1 := by
  obtain ⟨hr, _, hc, _⟩ := inB_elim hin
  rw [creates_five_eq_any b r c p hempty]
  simp only [List.any_eq_true, decide_eq_true_eq]
  constructor
  · rintro ⟨d, hd, hcnt⟩
    refine ⟨d, hd, ?_⟩
    rw [← axisCount_setCell_spec b p d.1 d.2 hr hc (dir_nonzero d hd)]
    exact hcnt
  · rintro ⟨d, hd, hcnt⟩
    refine ⟨d, hd, ?_⟩
    rw [axisCount_setCell_spec b p d.1 d.2 hr hc (dir_nonzero d hd)]
    exact hcnt

theorem creates_five_iff_spec_witness :
    WF winBoard ∧ inB winBoard 3 2 = true ∧ cellAt winBoard 3 2 = none ∧
      ((creates_five_in_row winBoard (3, 2) Player.X).1 = true ↔
        ∃ d ∈ directions,
          5 ≤ specRun winBoard Player.X 3 2 d.1 d.2 +
              specRun winBoard Player.X 3 2 (-d.1) (-d.2) + 1) :=
  ⟨by decide, by decide, by decide,
    creates_five_iff_spec winBoard Player.X 3 2 (by decide) (by decide)
      (by decide)⟩

/-- The simulate-then-revert algebra on the in-bounds model: on the board
coordinate domain the detector returns the board unchanged on both return
paths. -/
theorem creates_five_preserves_board_nonneg (b : Board) (m : Move)
    (p : Player) (hr : 0 ≤ m.1) (hc : 0 ≤ m.2) :
    (creates_five_in_row b m p).2 = b := by
  obtain ⟨r, c⟩ := m
  rw [creates_five_in_row]
  simp only []
  by_cases hemp : (cellAt b r c).isSome
  · rw [if_pos hemp]
  · rw [if_neg hemp]
    have hnone : cellAt b r c = none := Option.not_isSome_iff_eq_none.mp hemp
    split
    · exact setCell_setCell_cancel b p hr hc hnone
    · exact setCell_setCell_cancel b p hr hc hnone

theorem pyIdx_lt {n : Nat} {i : Int} {j : Nat} (h : pyIdx n i = some j) :
    j < n := by
  rw [pyIdx] at h
  split_ifs at h
  · have hj := Option.some.inj h
    omega
  · have hj := Option.some.inj h
    omega

theorem cellAtPy_eq_some {b : Board} {r c : Int} {ri ci : Nat}
    (hri : pyIdx b.length r = some ri)
    (hci : pyIdx (b.getD ri []).length c = some ci) :
    cellAtPy b r c = some ((b.getD ri []).getD ci none) := by
  rw [cellAtPy, hri]
  show (match pyIdx (b.getD ri []).length c with
    | none => none
    | some ci => some ((b.getD ri []).getD ci none)) =
      some ((b.getD ri []).getD ci none)
  rw [hci]

theorem setCellPy_eq_some {b : Board} {r c : Int} {ri ci : Nat} (v : Cell)
    (hri : pyIdx b.length r = some ri)
    (hci : pyIdx (b.getD ri []).length c = some ci) :
    setCellPy b r c v = some (b.set ri ((b.getD ri []).set ci v)) := by
  rw [setCellPy, hri]
  show (match pyIdx (b.getD ri []).length c with
    | none => none
    | some ci => some (b.set ri ((b.getD ri []).set ci v))) =
      some (b.set ri ((b.getD ri []).set ci v))
  rw [hci]

/-- C4: for every board, every player, and every move whatsoever (negative
coordinates wrap as Python indices do, out-of-range coordinates raise),
`_creates_five_in_row` leaves the board observably unchanged after the
call on every exit path: both return paths, including when it returns true
and when the probed cell was not empty, and the `IndexError` path, which
raises on the guard read before any mutation. -/
theorem creates_five_preserves_board (b : Board) (m : Move) (p : Player) :
    (creates_five_in_row_py b m p).2 = b := by
  obtain ⟨r, c⟩ := m
  rw [creates_five_in_row_py]
  simp only []
  cases hcell : cellAtPy b r c with
  | none => rfl
  | some cell =>
    simp only []
    by_cases hs : cell.isSome
    · rw [if_pos hs]
    · rw [if_neg hs]
      rw [cellAtPy] at hcell
      rcases hri : pyIdx b.length r with _ | ri
      · rw [hri] at hcell
        exact absurd hcell (by simp)
      rw [hri] at hcell
      simp only [] at hcell
      rcases hci : pyIdx (b.getD ri []).length c with _ | ci
      · rw [hci] at hcell
        exact absurd hcell (by simp)
      rw [hci] at hcell
      simp only [] at hcell
      have hcelleq : cell = (b.getD ri []).getD ci none :=
        (Option.some.inj hcell).symm
      have hnone : (b.getD ri []).getD ci none = none := by
        rw [← hcelleq]
        exact Option.not_isSome_iff_eq_none.mp hs
      have hlt : ri < b.length := pyIdx_lt hri
      have hset1 : setCellPy b r c (some p) =
          some (b.set ri ((b.getD ri []).set ci (some p))) :=
        setCellPy_eq_some (some p) hri hci
      have hrow1 : (b.set ri ((b.getD ri []).set ci (some p))).getD ri [] =
          (b.getD ri []).set ci (some p) := by
        rw [list_getD_set_self, if_pos hlt]
      have hri2 : pyIdx (b.set ri ((b.getD ri []).set ci (some p))).length r =
          some ri := by
        rw [List.length_set]
        exact hri
      have hci2 : pyIdx
          ((b.set ri ((b.getD ri []).set ci (some p))).getD ri []).length c =
          some ci := by
        rw [hrow1, List.length_set]
        exact hci
      have hset2 : setCellPy (b.set ri ((b.getD ri []).set ci (some p))) r c
          none = some ((b.set ri ((b.getD ri []).set ci (some p))).set ri
            (((b.set ri ((b.getD ri []).set ci (some p))).getD ri []).set ci
              none)) :=
        setCellPy_eq_some none hri2 hci2
      rw [hset1]
      simp only []
      rw [hset2]
      simp only []
      have hrowfix : (b.getD ri []).set ci none = b.getD ri [] := by
        conv_lhs => rw [← hnone]
        exact list_set_getD_self ..
      rw [hrow1, List.set_set, List.set_set, hrowfix]
      exact list_set_getD_self b ri []

/-- On the board coordinate domain (well-formed board, in-bounds move),
the Python-indexing model of the win detector agrees with the in-bounds
model used by the selector claims. -/
theorem creates_five_in_row_py_agrees (b : Board) (m : Move) (p : Player)
    (hwf : WF b) (hin : inB b m.1 m.2 = true) :
    creates_five_in_row_py b m p =
      (some (creates_five_in_row b m p).1, (creates_five_in_row b m p).2) := by
  obtain ⟨r, c⟩ := m
  obtain ⟨hr, hrlt, hc, hclt⟩ := inB_elim hin
  have hlt : r.toNat < b.length := by
    have h0 : (rows b : Int) = (b.length : Int) := rfl
    omega
  have hri : pyIdx b.length r = some r.toNat := by
    rw [pyIdx, if_pos hr, if_pos (by omega)]
  have hrow_mem : b.getD r.toNat [] ∈ b := by
    rw [List.getD_eq_getElem?_getD, List.getElem?_eq_getElem hlt,
      Option.getD_some]
    exact List.getElem_mem hlt
  have hrowlen : (b.getD r.toNat []).length = 8 := hwf.2 _ hrow_mem
  have hcols : cols b = 8 := by
    rcases hb : b with _ | ⟨h0, t⟩
    · rw [hb] at hlt
      simp at hlt
    · rw [← hb]
      have hmem : b.headD [] ∈ b := by
        rw [hb]
        exact List.mem_cons_self h0 t
      exact hwf.2 _ hmem
  have hci : pyIdx (b.getD r.toNat []).length c = some c.toNat := by
    rw [hrowlen, pyIdx, if_pos hc, if_pos (by omega)]
  have hcell : cellAtPy b r c = some (cellAt b r c) := by
    rw [cellAtPy_eq_some hri hci, cellAt, if_pos ⟨hr, hc⟩]
  have hset1 : setCellPy b r c (some p) = some (setCell b r c (some p)) :=
    setCellPy_eq_some (some p) hri hci
  have hrow1 : (setCell b r c (some p)).getD r.toNat [] =
      (b.getD r.toNat []).set c.toNat (some p) := by
    rw [setCell, list_getD_set_self, if_pos hlt]
  have hri2 : pyIdx (setCell b r c (some p)).length r = some r.toNat := by
    rw [setCell, List.length_set]
    exact hri
  have hci2 : pyIdx ((setCell b r c (some p)).getD r.toNat []).length c =
      some c.toNat := by
    rw [hrow1, List.length_set]
    exact hci
  have hset2 : setCellPy (setCell b r c (some p)) r c none =
      some (setCell (setCell b r c (some p)) r c none) :=
    setCellPy_eq_some none hri2 hci2
  rw [creates_five_in_row_py]
  simp only []
  rw [hcell]
  simp only []
  by_cases hemp : (cellAt b r c).isSome
  · rw [if_pos hemp, creates_five_in_row]
    simp only []
    rw [if_pos hemp]
  · rw [if_neg hemp]
    have hnone : cellAt b r c = none := Option.not_isSome_iff_eq_none.mp hemp
    rw [hset1]
    simp only []
    rw [hset2]
    simp only []
    rw [creates_five_eq_any b r c p hnone]

/-- C9 counterexample: probed at the occupied cell (0,0), the win detector
returns the ordinary value `false` (with the board untouched) instead of
failing fast with an assertion or explicit error. -/
theorem creates_five_nonempty_counterexample :
    (cellAt occBoard 0 0).isSome = true ∧
      creates_five_in_row occBoard (0, 0) Player.X = (false, occBoard) := by
  constructor
  · decide
  · decide

/-- C9 amended: when the move references a non-empty cell, the win detector
silently returns false (leaving the board unchanged) rather than failing
fast with an assertion or explicit error. -/
theorem creates_five_nonempty_returns_false (b : Board) (m : Move) (p : Player)
    (h : (cellAt b m.1 m.2).isSome = true) :
    creates_five_in_row b m p = (false, b) := by
  obtain ⟨r, c⟩ := m
  rw [creates_five_in_row]
  simp only []
  rw [if_pos h]

theorem creates_five_nonempty_returns_false_witness :
    (cellAt occBoard 0 0).isSome = true ∧
      creates_five_in_row occBoard (0, 0) Player.O = (false, occBoard) :=
  ⟨by decide,
    creates_five_nonempty_returns_false occBoard (0, 0) Player.O (by decide)⟩

/-! ## C5, C10: the position scorer -/

/-- The spec's centrality term `max(0, 7 − (|row − 3.5| + |col − 3.5|))`. -/
def centrality (r c : Int) : ℚ :=
  max 0 (7 - (|(r : ℚ) - 3.5| + |(c : ℚ) - 3.5|))

/-- The spec's density count: how many of the 8 Moore-neighborhood cells
are in-bounds and non-empty, regardless of which player occupies them. -/
def mooreCount (b : Board) (r c : Int) : Nat :=
  neighborOffsets.countP (fun d =>
    inB b (r + d.1) (c + d.2) && (cellAt b (r + d.1) (c + d.2)).isSome)

theorem foldl_add_two {α : Type} (P : α → Prop) [DecidablePred P] :
    ∀ (l : List α) (s : ℚ),
      l.foldl (fun acc x => if P x then acc + 2 else acc) s =
        s + 2 * (l.countP (fun x => decide (P x)) : ℚ)
  | [], s => by simp
  | a :: t, s => by
    rw [List.foldl_cons, List.countP_cons]
    by_cases h : P a
    · rw [if_pos h, foldl_add_two P t (s + 2)]
      simp only [decide_eq_true_eq, h, if_pos]
      push_cast
      ring
    · rw [if_neg h, foldl_add_two P t s]
      simp only [decide_eq_true_eq, h, if_neg, if_false]
      push_cast
      ring

/-- Closed form of the scorer: centrality plus 2 per occupied in-bounds
Moore neighbor (shared helper). -/
theorem evaluate_move_closed_form (b : Board) (r c : Int) (p : Player) :
    evaluate_move b (r, c) p = centrality r c + 2 * (mooreCount b r c : ℚ) := by
  rw [evaluate_move, centrality, mooreCount]
  simp only []
  rw [foldl_add_two (fun d : Int × Int =>
    inB b (r + d.1) (c + d.2) = true ∧
      (cellAt b (r + d.1) (c + d.2)).isSome = true) neighborOffsets]
  rw [zero_add]
  have hc : neighborOffsets.countP (fun x : Int × Int =>
        decide (inB b (r + x.1) (c + x.2) = true ∧
          (cellAt b (r + x.1) (c + x.2)).isSome = true)) =
      neighborOffsets.countP (fun d : Int × Int =>
        inB b (r + d.1) (c + d.2) && (cellAt b (r + d.1) (c + d.2)).isSome) := by
    apply List.countP_congr
    intro x _
    by_cases h1 : inB b (r + x.1) (c + x.2) = true <;>
      by_cases h2 : (cellAt b (r + x.1) (c + x.2)).isSome = true <;>
        simp [h1, h2]
  rw [hc]

theorem centrality_33 : centrality 3 3 = 6 := by
  rw [centrality]
  norm_num [abs]

theorem centrality_00 : centrality 0 0 = 0 := by
  rw [centrality]
  norm_num [abs]

/-- C5: for every board and move, `_evaluate_move` returns exactly the
centrality term plus 2 per in-bounds non-empty Moore neighbor, with no
other terms; in particular on the empty board (3,3) scores strictly higher
than (0,0). -/
theorem evaluate_move_spec :
    (∀ (b : Board) (r c : Int) (p : Player),
        evaluate_move b (r, c) p =
          centrality r c + 2 * (mooreCount b r c : ℚ)) ∧
      evaluate_move emptyBoard (3, 3) Player.X >
        evaluate_move emptyBoard (0, 0) Player.X := by
  refine ⟨evaluate_move_closed_form, ?_⟩
  rw [evaluate_move_closed_form, evaluate_move_closed_form,
    centrality_33, centrality_00]
  have h1 : mooreCount emptyBoard 3 3 = 0 := by decide
  have h2 : mooreCount emptyBoard 0 0 = 0 := by decide
  rw [h1, h2]
  norm_num

/-- C10: the `player` argument of `_evaluate_move` is never read, so the
scorer returns the same value for both players on every board and move. -/
theorem evaluate_move_player_blind (b : Board) (m : Move) (p q : Player) :
    evaluate_move b m p = evaluate_move b m q := rfl

/-! ## Properties of the descending tuple sort used in stage 4 -/

theorem pairLe_iff {a b : ℚ × Move} :
    pairLe a b = true ↔
      a.1 < b.1 ∨ (a.1 = b.1 ∧
        (a.2.1 < b.2.1 ∨ (a.2.1 = b.2.1 ∧ a.2.2 ≤ b.2.2))) := by
  rw [pairLe]
  simp only [Bool.or_eq_true, Bool.and_eq_true, decide_eq_true_eq]

theorem pairLe_refl (a : ℚ × Move) : pairLe a a = true := by
  rw [pairLe_iff]
  exact Or.inr ⟨rfl, Or.inr ⟨rfl, le_refl _⟩⟩

theorem pairLe_total (a b : ℚ × Move) :
    pairLe a b = true ∨ pairLe b a = true := by
  rw [pairLe_iff, pairLe_iff]
  rcases lt_trichotomy a.1 b.1 with h | h | h
  · exact Or.inl (Or.inl h)
  · rcases lt_trichotomy a.2.1 b.2.1 with g | g | g
    · exact Or.inl (Or.inr ⟨h, Or.inl g⟩)
    · rcases le_total a.2.2 b.2.2 with k | k
      · exact Or.inl (Or.inr ⟨h, Or.inr ⟨g, k⟩⟩)
      · exact Or.inr (Or.inr ⟨h.symm, Or.inr ⟨g.symm, k⟩⟩)
    · exact Or.inr (Or.inr ⟨h.symm, Or.inl g⟩)
  · exact Or.inr (Or.inl h)

theorem pairLe_trans {a b c : ℚ × Move} (h1 : pairLe a b = true)
    (h2 : pairLe b c = true) : pairLe a c = true := by
  rw [pairLe_iff] at h1 h2 ⊢
  rcases h1 with h1 | ⟨e1, h1⟩
  · rcases h2 with h2 | ⟨e2, _⟩
    · exact Or.inl (h1.trans h2)
    · exact Or.inl (lt_of_lt_of_eq h1 e2)
  · rcases h2 with h2 | ⟨e2, h2⟩
    · exact Or.inl (lt_of_eq_of_lt e1 h2)
    · refine Or.inr ⟨e1.trans e2, ?_⟩
      rcases h1 with h1 | ⟨f1, h1⟩
      · rcases h2 with h2 | ⟨f2, _⟩
        · exact Or.inl (h1.trans h2)
        · exact Or.inl (lt_of_lt_of_eq h1 f2)
      · rcases h2 with h2 | ⟨f2, h2⟩
        · exact Or.inl (lt_of_eq_of_lt f1 h2)
        · exact Or.inr ⟨f1.trans f2, le_trans h1 h2⟩

theorem insertDesc_ne_nil (x : ℚ × Move) (l : List (ℚ × Move)) :
    insertDesc x l ≠ [] := by
  cases l with
  | nil => simp [insertDesc]
  | cons y ys =>
    rw [insertDesc]
    split <;> simp

theorem sortDesc_eq_nil_iff (l : List (ℚ × Move)) :
    sortDesc l = [] ↔ l = [] := by
  cases l with
  | nil => simp [sortDesc]
  | cons a t =>
    simp only [sortDesc, List.foldr_cons]
    constructor
    · intro h
      exact absurd h (insertDesc_ne_nil a (t.foldr insertDesc []))
    · intro h
      exact absurd h (List.cons_ne_nil a t)

theorem mem_of_mem_insertDesc {x z : ℚ × Move} :
    ∀ {l : List (ℚ × Move)}, z ∈ insertDesc x l → z = x ∨ z ∈ l
  | [], h => by
    rw [insertDesc, List.mem_singleton] at h
    exact Or.inl h
  | y :: ys, h => by
    rw [insertDesc] at h
    split at h
    · rcases List.mem_cons.mp h with h | h
      · exact Or.inl h
      · exact Or.inr h
    · rcases List.mem_cons.mp h with h | h
      · exact Or.inr (h ▸ List.mem_cons_self y ys)
      · rcases mem_of_mem_insertDesc h with h | h
        · exact Or.inl h
        · exact Or.inr (List.mem_cons_of_mem y h)

theorem mem_of_mem_sortDesc {z : ℚ × Move} :
    ∀ {l : List (ℚ × Move)}, z ∈ sortDesc l → z ∈ l
  | [], h => h
  | a :: t, h => by
    simp only [sortDesc, List.foldr_cons] at h
    rcases mem_of_mem_insertDesc h with h | h
    · exact h ▸ List.mem_cons_self a t
    · exact List.mem_cons_of_mem a (mem_of_mem_sortDesc h)

theorem le_headD_insertDesc (x : ℚ × Move) (l : List (ℚ × Move))
    (d : ℚ × Move) : pairLe x ((insertDesc x l).headD d) = true := by
  cases l with
  | nil => simpa [insertDesc] using pairLe_refl x
  | cons y ys =>
    rw [insertDesc]
    by_cases h : pairLe y x = true
    · rw [if_pos h, List.headD_cons]
      exact pairLe_refl x
    · rw [if_neg h, List.headD_cons]
      rcases pairLe_total x y with k | k
      · exact k
      · exact absurd k h

/-- The head of the descending sort dominates every element of the list:
`scored_moves.sort(reverse=True); scored_moves[0]` picks a maximum under
the Python tuple order. -/
theorem le_headD_sortDesc {x : ℚ × Move} (d : ℚ × Move) :
    ∀ {l : List (ℚ × Move)}, x ∈ l → pairLe x ((sortDesc l).headD d) = true
  | [], hx => absurd hx (List.not_mem_nil x)
  | a :: t, hx => by
    simp only [sortDesc, List.foldr_cons]
    rcases List.mem_cons.mp hx with hx | hx
    · subst hx
      exact le_headD_insertDesc x (t.foldr insertDesc []) d
    · have ih : pairLe x ((sortDesc t).headD d) = true :=
        le_headD_sortDesc d hx
      rw [sortDesc] at ih
      cases hs : t.foldr insertDesc [] with
      | nil =>
        have : t = [] := by
          rw [← sortDesc_eq_nil_iff]
          exact hs
        subst this
        exact absurd hx (List.not_mem_nil x)
      | cons y ys =>
        rw [hs] at ih
        rw [insertDesc]
        by_cases h : pairLe y a = true
        · rw [if_pos h, List.headD_cons]
          rw [List.headD_cons] at ih
          exact pairLe_trans ih h
        · rw [if_neg h, List.headD_cons]
          rw [List.headD_cons] at ih
          exact ih

/-! ## The fallback move selector -/

/-- Stage 4 of the selector, in isolation: when no win, no block, and no
free center cell exists, the returned move is one whose `(score, move)`
pair dominates every legal move's pair under the Python tuple order
(shared helper). -/
theorem stage4_lexmax (b : Board) (legal : List Move) (p : Player)
    (h1 : legal.find? (fun m => (creates_five_in_row b m p).1) = none)
    (h2 : legal.find? (fun m => (creates_five_in_row b m p.other).1) = none)
    (h3 : centerMoves.find? (fun m => legal.contains m) = none)
    (h4 : legal ≠ []) :
    ∃ m, get_strategic_move b legal p = some m ∧ m ∈ legal ∧
      ∀ x ∈ legal,
        pairLe (evaluate_move b x p, x) (evaluate_move b m p, m) = true := by
  unfold get_strategic_move
  rw [h1, h2, h3]
  simp only []
  cases hs : sortDesc (legal.map (fun m => (evaluate_move b m p, m))) with
  | nil =>
    rw [sortDesc_eq_nil_iff, List.map_eq_nil_iff] at hs
    exact absurd hs h4
  | cons best rest =>
    have hmem : best ∈ sortDesc (legal.map (fun m => (evaluate_move b m p, m))) := by
      rw [hs]
      exact List.mem_cons_self best rest
    have hmem2 := mem_of_mem_sortDesc hmem
    obtain ⟨m', hm', hbest⟩ := List.mem_map.mp hmem2
    refine ⟨best.2, rfl, ?_, ?_⟩
    · rw [← hbest]
      exact hm'
    · intro x hx
      have hxmem : (evaluate_move b x p, x) ∈
          legal.map (fun m => (evaluate_move b m p, m)) :=
        List.mem_map_of_mem _ hx
      have := le_headD_sortDesc best hxmem
      rw [hs, List.headD_cons] at this
      have hb2 : (evaluate_move b best.2 p, best.2) = best := by
        rw [← hbest]
      rw [hb2]
      exact this

/-- C8: the selector returns `none` exactly on an empty legal-move list
(the Python code raises `IndexError` there), and on a non-empty list it
returns exactly one move drawn from the supplied legal-move list. -/
theorem strategic_move_in_legal (b : Board) (legal : List Move) (p : Player)
    (_hwf : WF b) :
    (legal = [] → get_strategic_move b legal p = none) ∧
    (legal ≠ [] → ∃ m, get_strategic_move b legal p = some m ∧ m ∈ legal) := by
  constructor
  · intro h
    subst h
    rfl
  · intro h4
    cases hf1 : legal.find? (fun m => (creates_five_in_row b m p).1) with
    | some m =>
      refine ⟨m, ?_, List.mem_of_find?_eq_some hf1⟩
      unfold get_strategic_move
      rw [hf1]
    | none =>
      cases hf2 : legal.find? (fun m => (creates_five_in_row b m p.other).1) with
      | some m =>
        refine ⟨m, ?_, List.mem_of_find?_eq_some hf2⟩
        unfold get_strategic_move
        rw [hf1, hf2]
      | none =>
        cases hf3 : centerMoves.find? (fun m => legal.contains m) with
        | some m =>
          have hmem : m ∈ legal := by
            have hc := List.find?_some hf3
            exact List.elem_iff.mp hc
          refine ⟨m, ?_, hmem⟩
          unfold get_strategic_move
          rw [hf1, hf2, hf3]
        | none =>
          obtain ⟨m, hm, hmem, _⟩ := stage4_lexmax b legal p hf1 hf2 hf3 h4
          exact ⟨m, hm, hmem⟩

theorem strategic_move_in_legal_witness :
    WF emptyBoard ∧
      (rowMajorEmpties emptyBoard ≠ [] →
        ∃ m, get_strategic_move emptyBoard (rowMajorEmpties emptyBoard)
            Player.X = some m ∧ m ∈ rowMajorEmpties emptyBoard) :=
  ⟨by decide,
    (strategic_move_in_legal emptyBoard (rowMajorEmpties emptyBoard) Player.X
      (by decide)).2⟩

/-- C2: whenever some legal move wins for the current player, the selector
returns the first winning move in the legal-move enumeration order,
preferring it over every other legal move. -/
theorem strategic_move_takes_win (b : Board) (legal : List Move) (p : Player)
    (_hwf : WF b)
    (h : ∃ x ∈ legal, (creates_five_in_row b x p).1 = true) :
    ∃ m, legal.find? (fun x => (creates_five_in_row b x p).1) = some m ∧
      get_strategic_move b legal p = some m ∧
      (creates_five_in_row b m p).1 = true ∧ m ∈ legal := by
  have hsome : (legal.find? (fun x => (creates_five_in_row b x p).1)).isSome := by
    rw [List.find?_isSome]
    exact h
  obtain ⟨m, hm⟩ := Option.isSome_iff_exists.mp hsome
  have hp := List.find?_some hm
  refine ⟨m, hm, ?_, hp, List.mem_of_find?_eq_some hm⟩
  unfold get_strategic_move
  rw [hm]

theorem strategic_move_takes_win_witness :
    WF winBoard ∧
      (∃ x ∈ rowMajorEmpties winBoard,
        (creates_five_in_row winBoard x Player.X).1 = true) ∧
      ∃ m, (rowMajorEmpties winBoard).find?
            (fun x => (creates_five_in_row winBoard x Player.X).1) = some m ∧
          get_strategic_move winBoard (rowMajorEmpties winBoard) Player.X =
            some m ∧
          (creates_five_in_row winBoard m Player.X).1 = true ∧
          m ∈ rowMajorEmpties winBoard :=
  ⟨by decide, by decide,
    strategic_move_takes_win winBoard (rowMajorEmpties winBoard) Player.X
      (by decide) (by decide)⟩

/-- C3: when no legal move wins for the current player but some legal move
would win for the opponent, the selector returns the first such blocking
move in the legal-move enumeration order. -/
theorem strategic_move_blocks (b : Board) (legal : List Move) (p : Player)
    (_hwf : WF b)
    (hno : ∀ x ∈ legal, (creates_five_in_row b x p).1 = false)
    (h : ∃ x ∈ legal, (creates_five_in_row b x p.other).1 = true) :
    ∃ m, legal.find? (fun x => (creates_five_in_row b x p.other).1) = some m ∧
      get_strategic_move b legal p = some m ∧
      (creates_five_in_row b m p.other).1 = true ∧ m ∈ legal := by
  have hf1 : legal.find? (fun x => (creates_five_in_row b x p).1) = none := by
    rw [List.find?_eq_none]
    intro x hx
    simp [hno x hx]
  have hsome : (legal.find?
      (fun x => (creates_five_in_row b x p.other).1)).isSome := by
    rw [List.find?_isSome]
    exact h
  obtain ⟨m, hm⟩ := Option.isSome_iff_exists.mp hsome
  have hp := List.find?_some hm
  refine ⟨m, hm, ?_, hp, List.mem_of_find?_eq_some hm⟩
  unfold get_strategic_move
  rw [hf1, hm]

theorem strategic_move_blocks_witness :
    WF winBoard ∧
      (∀ x ∈ rowMajorEmpties winBoard,
        (creates_five_in_row winBoard x Player.O).1 = false) ∧
      (∃ x ∈ rowMajorEmpties winBoard,
        (creates_five_in_row winBoard x Player.O.other).1 = true) ∧
      ∃ m, (rowMajorEmpties winBoard).find?
            (fun x => (creates_five_in_row winBoard x Player.O.other).1) =
              some m ∧
          get_strategic_move winBoard (rowMajorEmpties winBoard) Player.O =
            some m ∧
          (creates_five_in_row winBoard m Player.O.other).1 = true ∧
          m ∈ rowMajorEmpties winBoard :=
  ⟨by decide, by decide, by decide,
    strategic_move_blocks winBoard (rowMajorEmpties winBoard) Player.O
      (by decide) (by decide) (by decide)⟩

/-- C7: when no legal move wins for either player and some center cell is
legal, the selector returns the first legal cell of the fixed list
`[(3,3), (3,4), (4,3), (4,4)]` in exactly that order. -/
theorem strategic_move_center (b : Board) (legal : List Move) (p : Player)
    (_hwf : WF b)
    (hno1 : ∀ x ∈ legal, (creates_five_in_row b x p).1 = false)
    (hno2 : ∀ x ∈ legal, (creates_five_in_row b x p.other).1 = false)
    (h : ∃ x ∈ centerMoves, x ∈ legal) :
    ∃ m, centerMoves.find? (fun x => legal.contains x) = some m ∧
      get_strategic_move b legal p = some m ∧
      m ∈ centerMoves ∧ m ∈ legal := by
  have hf1 : legal.find? (fun x => (creates_five_in_row b x p).1) = none := by
    rw [List.find?_eq_none]
    intro x hx
    simp [hno1 x hx]
  have hf2 : legal.find?
      (fun x => (creates_five_in_row b x p.other).1) = none := by
    rw [List.find?_eq_none]
    intro x hx
    simp [hno2 x hx]
  have hsome : (centerMoves.find? (fun x => legal.contains x)).isSome := by
    rw [List.find?_isSome]
    obtain ⟨x, hx1, hx2⟩ := h
    exact ⟨x, hx1, List.elem_iff.mpr hx2⟩
  obtain ⟨m, hm⟩ := Option.isSome_iff_exists.mp hsome
  have hc := List.find?_some hm
  refine ⟨m, hm, ?_, List.mem_of_find?_eq_some hm, List.elem_iff.mp hc⟩
  unfold get_strategic_move
  rw [hf1, hf2, hm]

theorem strategic_move_center_witness :
    WF emptyBoard ∧
      (∀ x ∈ rowMajorEmpties emptyBoard,
        (creates_five_in_row emptyBoard x Player.X).1 = false) ∧
      (∀ x ∈ rowMajorEmpties emptyBoard,
        (creates_five_in_row emptyBoard x Player.X.other).1 = false) ∧
      (∃ x ∈ centerMoves, x ∈ rowMajorEmpties emptyBoard) ∧
      ∃ m, centerMoves.find?
            (fun x => (rowMajorEmpties emptyBoard).contains x) = some m ∧
          get_strategic_move emptyBoard (rowMajorEmpties emptyBoard)
            Player.X = some m ∧
          m ∈ centerMoves ∧ m ∈ rowMajorEmpties emptyBoard :=
  ⟨by decide, by decide, by decide, by decide,
    strategic_move_center emptyBoard (rowMajorEmpties emptyBoard) Player.X
      (by decide) (by decide) (by decide) (by decide)⟩

/-! ## C6: tie-breaking in the best-heuristic stage -/

/-- A board filled with a period-4 `XXOO` tiling (no run longer than 3 is
completable), leaving exactly the two cells (2,3) and (5,4) empty; both
empty cells score 21, so the best-heuristic stage faces a tie. -/
def patBoard : Board :=
  (List.range 8).map (fun r => (List.range 8).map (fun c =>
    if (r = 2 ∧ c = 3) ∨ (r = 5 ∧ c = 4) then none
    else if (c + 2*r) % 4 < 2 then some Player.X else some Player.O))

theorem centrality_23 : centrality 2 3 = 5 := by
  rw [centrality]
  norm_num [abs]

theorem centrality_54 : centrality 5 4 = 5 := by
  rw [centrality]
  norm_num [abs]

theorem evaluate_patBoard_23 : evaluate_move patBoard (2, 3) Player.X = 21 := by
  rw [evaluate_move_closed_form, centrality_23,
    show mooreCount patBoard 2 3 = 8 from by decide]
  norm_num

theorem evaluate_patBoard_54 : evaluate_move patBoard (5, 4) Player.X = 21 := by
  rw [evaluate_move_closed_form, centrality_54,
    show mooreCount patBoard 5 4 = 8 from by decide]
  norm_num

/-- C6 counterexample: on `patBoard` the legal-move list, enumerated
row-major, is `[(2,3), (5,4)]`; no win, block, or center stage fires; the
two legal moves tie for the maximum score; yet the selector returns (5,4),
not the first tied move (2,3) of the enumeration order. -/
theorem strategic_tie_counterexample :
    rowMajorEmpties patBoard = [(2, 3), (5, 4)] ∧
    (rowMajorEmpties patBoard).find?
      (fun m => (creates_five_in_row patBoard m Player.X).1) = none ∧
    (rowMajorEmpties patBoard).find?
      (fun m => (creates_five_in_row patBoard m Player.X.other).1) = none ∧
    centerMoves.find? (fun m => (rowMajorEmpties patBoard).contains m) =
      none ∧
    evaluate_move patBoard (2, 3) Player.X =
      evaluate_move patBoard (5, 4) Player.X ∧
    get_strategic_move patBoard (rowMajorEmpties patBoard) Player.X =
      some (5, 4) := by
  refine ⟨by decide, by decide, by decide, by decide, ?_, ?_⟩
  · rw [evaluate_patBoard_23, evaluate_patBoard_54]
  · have hl : rowMajorEmpties patBoard = [(2, 3), (5, 4)] := by decide
    rw [hl]
    unfold get_strategic_move
    rw [show ([(2, 3), (5, 4)] : List Move).find?
        (fun m => (creates_five_in_row patBoard m Player.X).1) = none
      from by decide]
    rw [show ([(2, 3), (5, 4)] : List Move).find?
        (fun m => (creates_five_in_row patBoard m Player.X.other).1) = none
      from by decide]
    rw [show centerMoves.find?
        (fun m => ([(2, 3), (5, 4)] : List Move).contains m) = none
      from by decide]
    simp only [List.map_cons, List.map_nil, evaluate_patBoard_23,
      evaluate_patBoard_54]
    decide

/-- C6 amended: in the best-heuristic stage, the selector returns the legal
move whose `(score, move)` pair is maximal under the Python tuple order:
among moves tied for the maximum score it picks the one with the
lexicographically largest `(row, col)` pair (a consequence of
`scored_moves.sort(reverse=True)` comparing the move tuples as
tie-breaker), not the first tied move of the legal-move enumeration
order. -/
theorem strategic_tie_break_lexmax (b : Board) (legal : List Move)
    (p : Player) (_hwf : WF b)
    (h1 : legal.find? (fun m => (creates_five_in_row b m p).1) = none)
    (h2 : legal.find? (fun m => (creates_five_in_row b m p.other).1) = none)
    (h3 : centerMoves.find? (fun m => legal.contains m) = none)
    (h4 : legal ≠ []) :
    ∃ m, get_strategic_move b legal p = some m ∧ m ∈ legal ∧
      ∀ x ∈ legal,
        pairLe (evaluate_move b x p, x) (evaluate_move b m p, m) = true :=
  stage4_lexmax b legal p h1 h2 h3 h4

theorem strategic_tie_break_lexmax_witness :
    WF patBoard ∧
      (rowMajorEmpties patBoard).find?
        (fun m => (creates_five_in_row patBoard m Player.X).1) = none ∧
      (rowMajorEmpties patBoard).find?
        (fun m => (creates_five_in_row patBoard m Player.X.other).1) =
          none ∧
      centerMoves.find?
        (fun m => (rowMajorEmpties patBoard).contains m) = none ∧
      rowMajorEmpties patBoard ≠ [] ∧
      ∃ m, get_strategic_move patBoard (rowMajorEmpties patBoard) Player.X =
          some m ∧ m ∈ rowMajorEmpties patBoard ∧
        ∀ x ∈ rowMajorEmpties patBoard,
          pairLe (evaluate_move patBoard x Player.X, x)
            (evaluate_move patBoard m Player.X, m) = true :=
  ⟨by decide, by decide, by decide, by decide, by decide,
    strategic_tie_break_lexmax patBoard (rowMajorEmpties patBoard) Player.X
      (by decide) (by decide) (by decide) (by decide) (by decide)⟩

end Gomoku
